import Mathlib

/-!
Verification of the flat state snapshot subsystem: the snapshot generator
(`proveRange`, `generateRange`, `generate`, `increaseKey`), the layered
diff stack (`Prepare`, `AccountRLP`, `Storage`, `flatten`), and the scoped
journal (`Snapshot`, `RevertToSnapshot`, the change recorders).

Go byte slices are modelled as `List (Fin 256)`; Go maps with `nil`-valued
entries are modelled as `Option`-valued functions or association lists;
panics and nil dereferences are modelled with `Option`; errors with `Except`.
External collaborators (the key/value iterator, the trie library, the bloom
filter library, the StateDB object layer) enter as explicit parameters or as
definitions marked `Modelled from the spec:` in their doc comment.
-/

/-- A single byte, as stored in a Go byte slice. -/
abbrev Byte := Fin 256

/-- A Go byte slice (`[]byte`). `[]` models both nil and the empty slice
except where the code distinguishes them, in which case `Option Bytes`
is used with `none` for nil. -/
abbrev Bytes := List Byte

/-- Go's `bytes.Compare`: lexicographic order on byte slices, a shorter
strict prefix ordering below any extension. -/
def compareBytes : Bytes → Bytes → Ordering
  | [], [] => .eq
  | [], _ :: _ => .lt
  | _ :: _, [] => .gt
  | a :: as, b :: bs =>
    if a < b then .lt
    else if b < a then .gt
    else compareBytes as bs

/-- Strict byte-string order, `bytes.Compare(a, b) < 0`. -/
def keyLt (a b : Bytes) : Prop := compareBytes a b = .lt

instance : DecidablePred fun p : Bytes × Bytes => keyLt p.1 p.2 := by
  intro p; unfold keyLt; infer_instance

instance (a b : Bytes) : Decidable (keyLt a b) := by
  unfold keyLt; infer_instance

theorem compareBytes_eq_iff : ∀ {a b : Bytes}, compareBytes a b = .eq ↔ a = b := by
  intro a
  induction a with
  | nil => intro b; cases b <;> simp [compareBytes]
  | cons x as ih =>
    intro b
    cases b with
    | nil => simp [compareBytes]
    | cons y bs =>
      simp only [compareBytes]
      by_cases hxy : x < y
      · simp only [hxy, if_true]
        constructor
        · intro h; exact absurd h (by decide)
        · intro h; injection h with h1 _; exact absurd h1 (ne_of_lt hxy)
      · by_cases hyx : y < x
        · simp only [hxy, if_false, hyx, if_true]
          constructor
          · intro h; exact absurd h (by decide)
          · intro h; injection h with h1 _; exact absurd h1.symm (ne_of_lt hyx)
        · have hxe : x = y := le_antisymm (not_lt.mp hyx) (not_lt.mp hxy)
          simp [hxy, hyx, ih, hxe]

theorem compareBytes_self (a : Bytes) : compareBytes a a = .eq :=
  compareBytes_eq_iff.mpr rfl

theorem compareBytes_gt_iff_lt : ∀ {a b : Bytes},
    compareBytes a b = .gt ↔ compareBytes b a = .lt := by
  intro a
  induction a with
  | nil => intro b; cases b <;> simp [compareBytes]
  | cons x as ih =>
    intro b
    cases b with
    | nil => simp [compareBytes]
    | cons y bs =>
      simp only [compareBytes]
      by_cases hxy : x < y
      · have : ¬ y < x := not_lt.mpr (le_of_lt hxy)
        simp [hxy, this]
      · by_cases hyx : y < x
        · simp [hxy, hyx]
        · simp [hxy, hyx, ih]

theorem keyLt_trans : ∀ {a b c : Bytes}, keyLt a b → keyLt b c → keyLt a c := by
  unfold keyLt
  intro a
  induction a with
  | nil =>
    intro b c hab hbc
    cases b with
    | nil => simp [compareBytes] at hab
    | cons y bs =>
      cases c with
      | nil => simp [compareBytes] at hbc
      | cons z cs => simp [compareBytes]
  | cons x as ih =>
    intro b c hab hbc
    cases b with
    | nil => simp [compareBytes] at hab
    | cons y bs =>
      cases c with
      | nil => simp [compareBytes] at hbc
      | cons z cs =>
        simp only [compareBytes] at hab hbc ⊢
        by_cases hxy : x < y
        · -- x < y; combine with y ? z
          by_cases hyz : y < z
          · simp [lt_trans hxy hyz]
          · by_cases hzy : z < y
            · simp [hxy] at hab
              simp [hyz, hzy] at hbc
            · have : y = z := le_antisymm (not_lt.mp hzy) (not_lt.mp hyz)
              subst this
              simp [hxy]
        · by_cases hyx : y < x
          · simp [hxy, hyx] at hab
          · have hxe : x = y := le_antisymm (not_lt.mp hyx) (not_lt.mp hxy)
            subst hxe
            simp only [hxy, if_neg, lt_irrefl, if_false] at hab
            by_cases hxz : x < z
            · simp [hxz]
            · by_cases hzx : z < x
              · simp [hxz, hzx] at hbc
              · have : x = z := le_antisymm (not_lt.mp hzx) (not_lt.mp hxz)
                subst this
                simp only [lt_irrefl, if_false] at hbc ⊢
                exact ih hab hbc

theorem keyLt_irrefl (a : Bytes) : ¬ keyLt a a := by
  unfold keyLt
  simp [compareBytes_self]

/-- `increaseKey` from the generator: lexicographic successor of a key of
fixed width, computed by incrementing bytes from the end; `none` when the
whole addition overflows (the key was `0xff…ff`, or empty). -/
def increaseKeyRev : Bytes → Option Bytes
  | [] => none
  | b :: rest =>
    let b' := b + 1
    if b' ≠ 0 then some (b' :: rest)
    else (increaseKeyRev rest).map (fun r => 0 :: r)

/-- Go `increaseKey`: increments the key in place from the last byte
backwards; returns `nil` when every byte wrapped around. -/
def increaseKey (key : Bytes) : Option Bytes :=
  (increaseKeyRev key.reverse).map List.reverse

/-- Big-endian unsigned integer value of a byte string
(`binary.BigEndian.Uint64` when applied to 8 bytes). -/
def beUint64 (l : Bytes) : Nat :=
  l.foldl (fun acc b => acc * 256 + b.val) 0

example : compareBytes [1, 2] [1, 2, 0] = .lt := by decide
example : compareBytes [2] [1, 255] = .gt := by decide
example : increaseKey [0, 255] = some [1, 0] := by decide
example : increaseKey [255, 255] = none := by decide
example : increaseKey [] = none := by decide
example : beUint64 [1, 0] = 256 := by decide

/-- `common.HashLength`: hashes are 32 bytes. -/
def HashLength : Nat := 32

/-- `accountCheckRange`: upper limit of accounts per range check. -/
def accountCheckRange : Nat := 128

/-- `storageCheckRange`: upper limit of storage slots per range check. -/
def storageCheckRange : Nat := 1024

/-- A value-conversion callback (`valueConvertFn`); a conversion either
succeeds with the converted bytes or fails. -/
abbrev ConvFn := Bytes → Except Unit Bytes

/-- The value `proveRange` stores for an iterated entry: the converted value
when a converter is given and succeeds, otherwise the original value (on a
conversion error the original bytes are retained, lines 276-291). -/
def applyConv (conv : Option ConvFn) (v : Bytes) : Bytes :=
  match conv with
  | none => v
  | some f =>
    match f v with
    | .ok w => w
    | .error _ => v

/-- The database-iteration loop of `proveRange` (lines 259-292).
`entries` is the (prefix-bounded, origin-positioned) sequence the key/value
iterator yields, as full `prefix‖suffix` keys; `n` is the number of entries
collected so far (`len(keys)`). Keys whose length differs from
`plen + HashLength` are skipped; when a well-formed key arrives with the
batch already at `max` the loop stops and reports `diskMore`. Returns
(collected key suffixes, collected values, diskMore). -/
def collectLoop (plen max : Nat) (conv : Option ConvFn) :
    List (Bytes × Bytes) → Nat → List Bytes × List Bytes × Bool
  | [], _ => ([], [], false)
  | (k, v) :: rest, n =>
    if k.length ≠ plen + HashLength then collectLoop plen max conv rest n
    else if n = max then ([], [], true)
    else
      let r := collectLoop plen max conv rest (n + 1)
      (k.drop plen :: r.1, applyConv conv v :: r.2.1, r.2.2)

/-- The trie library operations `proveRange` consumes, as an abstract
oracle (the trie is an external collaborator): `stackHash` is the root of
an in-memory stack-trie built from a batch (`trie.NewStackTrie` + `Hash`),
`trieOk` is whether `trie.New(root, db)` succeeds, `proveOk k` whether
`tr.Prove(k, 0, proof)` succeeds, and `verify first last keys vals` is
`trie.VerifyRangeProof`, returning (proof accepted, trie has more keys). -/
structure TrieOracle where
  stackHash : List (Bytes × Bytes) → Bytes
  trieOk : Bool
  proveOk : Bytes → Bool
  verify : Bytes → Option Bytes → List Bytes → List Bytes → Bool × Bool

/-- The `proofResult` record built by `proveRange`: collected keys and
values, the disk/trie continuation flags, whether `proofErr == nil`
(`proofOk`), and which verification path was taken (`usedStackTrie` is true
on the no-proof whole-batch path, false when edge proofs were generated). -/
structure ProofRes where
  keys : List Bytes
  vals : List Bytes
  diskMore : Bool
  trieMore : Bool
  proofOk : Bool
  usedStackTrie : Bool
deriving DecidableEq, Repr

/-- `diskLayer.proveRange` (lines 252-351): collect up to `max` flat
entries under `prefix` from `origin`, then either (a) when `origin` is nil
and the batch is complete, rebuild a stack-trie from the whole batch and
compare roots — no edge proofs — or (b) open the trie at `root`
(`none` = `ErrMissingTrie`, aborting the procedure), generate edge proofs
for `origin` (nil replaced by 32 zero bytes) and the last collected key,
and run the range prover. -/
def proveRange (o : TrieOracle) (root : Bytes) (plen : Nat)
    (entries : List (Bytes × Bytes)) (origin : Option Bytes) (max : Nat)
    (conv : Option ConvFn) : Option ProofRes :=
  let c := collectLoop plen max conv entries 0
  let keys := c.1
  let vals := c.2.1
  let diskMore := c.2.2
  if origin = none ∧ diskMore = false then
    some { keys := keys, vals := vals, diskMore := false, trieMore := false,
           proofOk := decide (o.stackHash (keys.zip vals) = root),
           usedStackTrie := true }
  else if o.trieOk = false then
    none
  else
    let last := keys.getLast?
    let originBytes := origin.getD (List.replicate HashLength 0)
    if o.proveOk originBytes = false then
      some { keys := keys, vals := vals, diskMore := diskMore,
             trieMore := false, proofOk := false, usedStackTrie := false }
    else if last.isSome ∧ o.proveOk (last.getD []) = false then
      some { keys := keys, vals := vals, diskMore := diskMore,
             trieMore := false, proofOk := false, usedStackTrie := false }
    else
      let vr := o.verify originBytes last keys vals
      some { keys := keys, vals := vals, diskMore := diskMore,
             trieMore := vr.2, proofOk := vr.1, usedStackTrie := false }

/-- C9: for every entry iterated by `proveRange` with a value converter, a
conversion error appends the original value in the entry's place and the
iteration continues unchanged: the collected keys and the `diskMore` flag
are exactly those of an unconverted run, every collected value is the
converted value or, on error, the original, and the key and value lists
always have equal length. -/
theorem collectLoop_convert_error_tolerated
    (plen max : Nat) (f : ConvFn) (entries : List (Bytes × Bytes)) (n : Nat) :
    (collectLoop plen max (some f) entries n).1
        = (collectLoop plen max none entries n).1
    ∧ (collectLoop plen max (some f) entries n).2.2
        = (collectLoop plen max none entries n).2.2
    ∧ (collectLoop plen max (some f) entries n).2.1
        = ((collectLoop plen max none entries n).2.1).map (applyConv (some f))
    ∧ ∀ conv : Option ConvFn,
        (collectLoop plen max conv entries n).1.length
          = (collectLoop plen max conv entries n).2.1.length := by
  induction entries generalizing n with
  | nil => simp [collectLoop]
  | cons e rest ih =>
    obtain ⟨k, v⟩ := e
    by_cases hlen : k.length ≠ plen + HashLength
    · simp only [collectLoop, if_pos hlen]
      exact ih n
    · by_cases hmax : n = max
      · simp [collectLoop, hlen, hmax]
      · simp only [collectLoop, if_neg hlen, if_neg hmax]
        obtain ⟨h1, h2, h3, h4⟩ := ih (n + 1)
        refine ⟨by simp [h1], h2, by simp [h3, applyConv], ?_⟩
        intro conv
        simp [h4 conv]

/-- C10: `proveRange`'s iteration silently skips every database key whose
total length differs from `len(prefix) + 32`: the collected batch, the
capacity accounting and the `diskMore` flag are identical to a run over only
the exact-length entries, and every collected key suffix is exactly 32
bytes. -/
theorem collectLoop_skips_malformed_keys
    (plen max : Nat) (conv : Option ConvFn) (entries : List (Bytes × Bytes))
    (n : Nat) :
    collectLoop plen max conv entries n
      = collectLoop plen max conv
          (entries.filter (fun e => e.1.length == plen + HashLength)) n
    ∧ (collectLoop plen max conv entries n).1.all
        (fun k => k.length == HashLength) = true := by
  induction entries generalizing n with
  | nil => simp [collectLoop]
  | cons e rest ih =>
    obtain ⟨k, v⟩ := e
    by_cases hlen : k.length = plen + HashLength
    · have hk : (k.length == plen + HashLength) = true := by simp [hlen]
      by_cases hmax : n = max
      · simp [collectLoop, hlen, hmax, hk]
      · obtain ⟨ih1, ih2⟩ := ih (n + 1)
        constructor
        · simp only [List.filter_cons, hk, if_true, collectLoop,
            if_neg (by simp [hlen] : ¬ k.length ≠ plen + HashLength),
            if_neg hmax]
          rw [ih1]
        · simp only [collectLoop,
            if_neg (by simp [hlen] : ¬ k.length ≠ plen + HashLength),
            if_neg hmax, List.all_cons, Bool.and_eq_true]
          refine ⟨?_, ih2⟩
          simp [hlen]
    · have hk : (k.length == plen + HashLength) = false := by simp [hlen]
      obtain ⟨ih1, ih2⟩ := ih n
      constructor
      · simp only [List.filter_cons, hk, if_false, collectLoop, if_pos hlen]
        exact ih1
      · simp only [collectLoop, if_pos hlen]
        exact ih2

/-- Trie oracle used for concrete evaluations: a trivially succeeding trie
whose stack root is always the empty byte string. -/
def oracleTriv : TrieOracle where
  stackHash := fun _ => []
  trieOk := true
  proveOk := fun _ => true
  verify := fun _ _ _ _ => (true, false)

/-- A one-entry iterator batch: a single 32-byte key of 1-bytes. -/
def entriesOne : List (Bytes × Bytes) := [(List.replicate 32 1, [7])]

/-- The 32-byte all-zero key, `0x00…00`. -/
def zeroKey : Bytes := List.replicate 32 0

/-- C6 counterexample: calling `proveRange` with `firstKey = 0x00…00` (an
explicit all-zero origin, distinct from a nil origin) and a complete batch
(`diskMore = false`) does NOT take the no-proof stack-trie path: the code
branches on `origin == nil`, so the edge-proof path is taken. -/
theorem proveRange_zero_origin_not_stackTrie :
    (proveRange oracleTriv [] 0 entriesOne (some zeroKey) 10 none).map
        ProofRes.usedStackTrie = some false
    ∧ (proveRange oracleTriv [] 0 entriesOne (some zeroKey) 10 none).map
        ProofRes.diskMore = some false := by
  constructor <;> decide

/-- C6 amended: `proveRange` takes the no-proof stack-trie verification path
exactly when called with a nil origin (`origin == nil`, meaning "start of
the key space", distinct from the explicit key `0x00…00`) and the collected
batch is complete; in that case validity is exactly agreement of the
stack-trie root with the target root and no continuation flags are set. In
every other case edge-proof verification is used. -/
theorem proveRange_stackTrie_iff
    (o : TrieOracle) (root : Bytes) (plen : Nat)
    (entries : List (Bytes × Bytes)) (origin : Option Bytes) (max : Nat)
    (conv : Option ConvFn) (res : ProofRes)
    (h : proveRange o root plen entries origin max conv = some res) :
    (res.usedStackTrie = true
        ↔ origin = none ∧ (collectLoop plen max conv entries 0).2.2 = false)
    ∧ (res.usedStackTrie = true →
        (res.proofOk = true ↔ o.stackHash (res.keys.zip res.vals) = root)
        ∧ res.diskMore = false ∧ res.trieMore = false) := by
  by_cases hc : origin = none ∧ (collectLoop plen max conv entries 0).2.2 = false
  · simp only [proveRange, if_pos hc, Option.some.injEq] at h
    subst h
    simp [hc, decide_eq_true_eq]
  · simp only [proveRange, if_neg hc] at h
    split at h
    · exact absurd h (by simp)
    · split at h
      · simp only [Option.some.injEq] at h
        subst h
        simp [hc]
      · split at h
        · simp only [Option.some.injEq] at h
          subst h
          simp [hc]
        · simp only [Option.some.injEq] at h
          subst h
          simp [hc]

/-- The `proofResult` produced by the stack-trie path on `entriesOne` with
a nil origin. -/
def resStack : ProofRes where
  keys := [List.replicate 32 1]
  vals := [[7]]
  diskMore := false
  trieMore := false
  proofOk := true
  usedStackTrie := true

/-- Witness for `proveRange_stackTrie_iff` at a concrete nil-origin call. -/
theorem proveRange_stackTrie_iff_witness :
    (resStack.usedStackTrie = true
        ↔ (none : Option Bytes) = none
          ∧ (collectLoop 0 10 none entriesOne 0).2.2 = false)
    ∧ (resStack.usedStackTrie = true →
        (resStack.proofOk = true
            ↔ oracleTriv.stackHash (resStack.keys.zip resStack.vals) = [])
        ∧ resStack.diskMore = false ∧ resStack.trieMore = false) :=
  proveRange_stackTrie_iff oracleTriv [] 0 entriesOne none 10 none resStack
    (by decide)

/-- Initialisation of the generator's main loop (`diskLayer.generate`,
lines 531-540): `accMarker` is nil and `accountRange` is
`accountCheckRange` when `genMarker` is empty; whenever `genMarker` is
nonempty — a 32-byte between-accounts marker as well as a 64-byte
mid-account marker — `accMarker` is the 32-byte prefix and `accountRange`
is always reset to 1. Returns `(accMarker, accountRange)`. -/
def generateInit (genMarker : Bytes) : Option Bytes × Nat :=
  if genMarker.length > 0 then (some (genMarker.take HashLength), 1)
  else (none, accountCheckRange)

/-- C5 counterexample: resuming from a 32-byte between-accounts marker
initialises `accountRange` to 1, not to `accountCheckRange` (128): the code
resets the range to 1 on every interrupted resume, whatever the marker
length. -/
theorem generateInit_resume_between_accounts_is_one :
    (generateInit (List.replicate 32 17)).2 = 1
    ∧ (generateInit (List.replicate 32 17)).2 ≠ accountCheckRange
    ∧ (List.replicate 32 (17 : Byte)).length = HashLength := by
  refine ⟨by decide, by decide, by decide⟩

/-- C5 amended: at generator start `accMarker` is the 32-byte account
prefix of `genMarker` (nil when `genMarker` is empty), and `accountRange`
is initialised to 1 exactly when `genMarker` is nonempty — whether the run
resumes mid-account (64 bytes) or between accounts (32 bytes) — and to
`accountCheckRange` (128) only on a fresh start. -/
theorem generateInit_spec (m : Bytes)
    (_h : m.length = 0 ∨ m.length = HashLength ∨ m.length = 2 * HashLength) :
    (generateInit m).1 = (if m.length = 0 then none else some (m.take HashLength))
    ∧ ((generateInit m).2 = 1 ↔ m.length ≠ 0)
    ∧ ((generateInit m).2 = accountCheckRange ↔ m.length = 0) := by
  by_cases hm : m.length = 0
  · simp [generateInit, hm, accountCheckRange]
  · have hpos : m.length > 0 := Nat.pos_of_ne_zero hm
    simp [generateInit, hm, hpos, accountCheckRange]

/-- Witness for `generateInit_spec` at a 64-byte mid-account marker. -/
theorem generateInit_spec_witness :
    (generateInit (List.replicate 64 3)).1
        = (if (List.replicate 64 (3 : Byte)).length = 0 then none
           else some ((List.replicate 64 (3 : Byte)).take HashLength))
    ∧ ((generateInit (List.replicate 64 3)).2 = 1
        ↔ (List.replicate 64 (3 : Byte)).length ≠ 0)
    ∧ ((generateInit (List.replicate 64 3)).2 = accountCheckRange
        ↔ (List.replicate 64 (3 : Byte)).length = 0) :=
  generateInit_spec (List.replicate 64 3) (by decide)

/-- Outcome of one pass of the generator's main account loop
(lines 703-721): finalise the snapshot, return on an error, or continue
from a new origin. -/
inductive StepRes where
  | finalise
  | errorOut
  | next (origin : Bytes)
deriving DecidableEq, Repr

/-- One pass of the main loop of `diskLayer.generate`: `r` is what
`generateRange` reported (`none` = error; otherwise `(exhausted, last)`).
On an error the generator returns without finalising; when `exhausted` it
breaks out and finalises; when the successor of `last` overflows it also
breaks out and finalises; otherwise it continues from the successor. -/
def genStep (r : Option (Bool × Bytes)) : StepRes :=
  match r with
  | none => .errorOut
  | some (exhausted, last) =>
    if exhausted then .finalise
    else
      match increaseKey last with
      | none => .finalise
      | some k => .next k

/-- Result of running the generator's main loop to the end. `finalised`
models the completion block of lines 722-746: `journalProgress(batch, nil)`
persisting the done record, `genMarker := nil`, and `close(genPending)`. -/
inductive GenOutcome where
  | finalised
  | errored
  | outOfFuel
deriving DecidableEq, Repr

/-- The main account loop of `diskLayer.generate`, with `generateRange`
abstracted as `rangeFn origin accountRange` and an explicit fuel bound on
the number of passes. After every continuing pass `accountRange` is reset
to `accountCheckRange`. -/
def generateLoop (rangeFn : Option Bytes → Nat → Option (Bool × Bytes)) :
    Nat → Option Bytes → Nat → GenOutcome
  | 0, _, _ => .outOfFuel
  | fuel + 1, accOrigin, accountRange =>
    match genStep (rangeFn accOrigin accountRange) with
    | .finalise => .finalised
    | .errorOut => .errored
    | .next k => generateLoop rangeFn fuel (some k) accountCheckRange

/-- C4 counterexample: a pass whose `generateRange` reports `exhausted` with
a last key far from `0xff…ff` still finalises the snapshot: the loop breaks
and runs the completion block on `exhausted` alone, without requiring the
key successor of `last` to overflow. -/
theorem generate_finalises_on_exhausted_alone :
    generateLoop (fun _ _ => some (true, List.replicate 32 0)) 1 none
        accountCheckRange = .finalised
    ∧ increaseKey (List.replicate 32 0) ≠ none
    ∧ genStep (some (true, List.replicate 32 0)) = .finalise := by
  refine ⟨by decide, by decide, by decide⟩

/-- C4 amended: a pass of the generator's main loop finalises generation
exactly when `generateRange` reports `exhausted` OR the lexicographic
successor of the last processed key overflows; and whenever the loop ends
in the finalised state, some pass satisfied that disjunction. -/
theorem generate_finalise_iff
    (rangeFn : Option Bytes → Nat → Option (Bool × Bytes)) :
    (∀ (exhausted : Bool) (last : Bytes),
      genStep (some (exhausted, last)) = .finalise
        ↔ exhausted = true ∨ increaseKey last = none)
    ∧ ∀ (fuel : Nat) (o : Option Bytes) (r : Nat),
        generateLoop rangeFn fuel o r = .finalised →
        ∃ (o' : Option Bytes) (r' : Nat) (exhausted : Bool) (last : Bytes),
          rangeFn o' r' = some (exhausted, last)
          ∧ (exhausted = true ∨ increaseKey last = none) := by
  constructor
  · intro exhausted last
    by_cases he : exhausted
    · simp [genStep, he]
    · simp only [genStep, he, if_false, Bool.false_eq_true, false_or]
      cases hk : increaseKey last <;> simp [hk]
  · intro fuel
    induction fuel with
    | zero => intro o r h; exact absurd h (by simp [generateLoop])
    | succ n ih =>
      intro o r h
      simp only [generateLoop] at h
      cases hr : rangeFn o r with
      | none => rw [hr] at h; simp [genStep] at h
      | some p =>
        obtain ⟨exhausted, last⟩ := p
        rw [hr] at h
        by_cases he : exhausted
        · exact ⟨o, r, exhausted, last, hr, Or.inl he⟩
        · simp only [genStep, he, if_false] at h
          cases hk : increaseKey last with
          | none => exact ⟨o, r, exhausted, last, hr, Or.inr hk⟩
          | some k =>
            rw [hk] at h
            exact ih (some k) accountCheckRange h

/-- Witness for `generate_finalise_iff` on a loop that exhausts on its
first pass. -/
theorem generate_finalise_iff_witness :
    ∃ (o' : Option Bytes) (r' : Nat) (exhausted : Bool) (last : Bytes),
      (fun (_ : Option Bytes) (_ : Nat) => some (true, ([] : Bytes))) o' r'
          = some (exhausted, last)
      ∧ (exhausted = true ∨ increaseKey last = none) :=
  (generate_finalise_iff (fun _ _ => some (true, []))).2 1 none
    accountCheckRange (by decide)

/-- One `onState` callback delivered by `generateRange`'s regeneration
loop: the key, the value passed (`none` models Go's nil for deletions),
and the `write` and `delete` flags. -/
structure Call where
  key : Bytes
  val : Option Bytes
  write : Bool
  del : Bool
deriving DecidableEq, Repr

/-- The deletion callback `onState(key, nil, false, true)` for a stale
snapshot entry. -/
def delCall (p : Bytes × Bytes) : Call :=
  { key := p.1, val := none, write := false, del := true }

/-- The inner loop of `generateRange`'s trie/snapshot lockstep walk
(lines 467-491): given the remaining snapshot batch and the current trie
entry `(tk, tv)`, emit a deletion for every snapshot key strictly below
`tk`, consume an equal key (the write flag becomes whether the values
differ), and stop at a greater key (write stays true). Returns
(emitted deletions, remaining batch, write flag). -/
def innerAdvance : List (Bytes × Bytes) → Bytes → Bytes →
    List Call × List (Bytes × Bytes) × Bool
  | [], _, _ => ([], [], true)
  | (sk, sv) :: rest, tk, tv =>
    match compareBytes sk tk with
    | .lt =>
      let r := innerAdvance rest tk tv
      (delCall (sk, sv) :: r.1, r.2.1, r.2.2)
    | .eq => ([], rest, decide (sv ≠ tv))
    | .gt => ([], (sk, sv) :: rest, true)

/-- Go's `last != nil && bytes.Compare(iter.Key, last) > 0`: the trie
iteration stops past `last` (inclusive bound). -/
def beyondLast (last : Option Bytes) (tk : Bytes) : Bool :=
  match last with
  | none => false
  | some l => compareBytes tk l = .gt

/-- The trie-iteration loop plus trailing deletions of
`generateRange`'s proof-failure fallback (lines 458-508): walk the trie
entries (`ts`, the leaves the node iterator yields from `origin` onward) in
lockstep with the collected snapshot batch (`kvs`), stopping the trie walk
beyond `last`; after the walk every remaining batch entry is deleted.
Returns (the `onState` calls in order, `trieMore`). -/
def regenLoop : List (Bytes × Bytes) → List (Bytes × Bytes) → Option Bytes →
    List Call × Bool
  | [], kvs, _ => (kvs.map delCall, false)
  | (tk, tv) :: ts, kvs, last =>
    if beyondLast last tk then (kvs.map delCall, true)
    else
      let a := innerAdvance kvs tk tv
      let r := regenLoop ts a.2.1 last
      (a.1 ++ { key := tk, val := some tv, write := a.2.2, del := false } :: r.1,
       r.2)

/-- Restriction of the trie iteration to the keys bounded inclusively by
`last` (no bound when `last` is nil). -/
def truncAtLast (last : Option Bytes) (ts : List (Bytes × Bytes)) :
    List (Bytes × Bytes) :=
  ts.takeWhile (fun p => ! beyondLast last p.1)

/-- The merge the specification describes, written from its words: walk
trie entries and snapshot entries in lockstep; every snapshot key strictly
below the current trie key is deleted (`onState(s, nil, false, true)`); on
an equal key the trie value is delivered with
`write = (snapshot value != trie value)`; on a trie key with no matching
snapshot key the value is delivered with `write = true`; snapshot keys left
after the trie is exhausted are deleted. -/
def mergeSpec : List (Bytes × Bytes) → List (Bytes × Bytes) → List Call
  | [], kvs => kvs.map delCall
  | (tk, tv) :: ts, [] =>
    { key := tk, val := some tv, write := true, del := false } :: mergeSpec ts []
  | (tk, tv) :: ts, (sk, sv) :: srest =>
    match compareBytes sk tk with
    | .lt => delCall (sk, sv) :: mergeSpec ((tk, tv) :: ts) srest
    | .eq =>
      { key := tk, val := some tv, write := decide (sv ≠ tv), del := false }
        :: mergeSpec ts srest
    | .gt =>
      { key := tk, val := some tv, write := true, del := false }
        :: mergeSpec ts ((sk, sv) :: srest)
termination_by ts kvs => ts.length + kvs.length

/-- Unfolding `mergeSpec` at a trie entry matches one `innerAdvance` step
followed by the trie entry's own callback. -/
theorem mergeSpec_cons (tk : Bytes) (tv : Bytes) (ts kvs : List (Bytes × Bytes)) :
    mergeSpec ((tk, tv) :: ts) kvs
      = (innerAdvance kvs tk tv).1
        ++ { key := tk, val := some tv, write := (innerAdvance kvs tk tv).2.2,
             del := false } :: mergeSpec ts (innerAdvance kvs tk tv).2.1 := by
  induction kvs with
  | nil => simp [mergeSpec, innerAdvance]
  | cons p rest ih =>
    obtain ⟨sk, sv⟩ := p
    cases hc : compareBytes sk tk with
    | lt =>
      simp only [mergeSpec, hc, innerAdvance]
      rw [ih]
      simp
    | eq => simp [mergeSpec, hc, innerAdvance]
    | gt => simp [mergeSpec, hc, innerAdvance]

/-- The regeneration loop is the spec merge on the trie entries bounded
inclusively by `last`. -/
theorem regenLoop_eq_mergeSpec (ts : List (Bytes × Bytes)) :
    ∀ (kvs : List (Bytes × Bytes)) (last : Option Bytes),
    (regenLoop ts kvs last).1 = mergeSpec (truncAtLast last ts) kvs := by
  induction ts with
  | nil => intro kvs last; simp [regenLoop, truncAtLast, mergeSpec]
  | cons p ts ih =>
    intro kvs last
    obtain ⟨tk, tv⟩ := p
    cases hb : beyondLast last tk with
    | true =>
      simp only [regenLoop, hb, if_true, truncAtLast, List.takeWhile_cons,
        Bool.not_true, if_false]
      simp [mergeSpec]
    | false =>
      simp only [regenLoop, hb, if_false, truncAtLast, List.takeWhile_cons,
        Bool.not_false, if_true]
      rw [mergeSpec_cons, ih]
      rfl

/-- Every deletion `innerAdvance` emits carries a batch key strictly below
the current trie key, and flags a delete with a nil value. -/
theorem innerAdvance_dels (kvs : List (Bytes × Bytes)) (tk tv : Bytes) :
    ∀ c ∈ (innerAdvance kvs tk tv).1,
      keyLt c.key tk ∧ c.key ∈ kvs.map Prod.fst ∧ c = delCall (c.key, []) := by
  induction kvs with
  | nil => simp [innerAdvance]
  | cons p rest ih =>
    obtain ⟨sk, sv⟩ := p
    intro c hc
    cases hcmp : compareBytes sk tk with
    | lt =>
      simp only [innerAdvance, hcmp, List.mem_cons] at hc
      rcases hc with hc | hc
      · subst hc
        exact ⟨hcmp, by simp [delCall], by simp [delCall]⟩
      · obtain ⟨h1, h2, h3⟩ := ih c hc
        exact ⟨h1, by simp [h2], h3⟩
    | eq => simp [innerAdvance, hcmp] at hc
    | gt => simp [innerAdvance, hcmp] at hc

/-- The batch remainder of `innerAdvance` is a sublist of the batch. -/
theorem innerAdvance_sublist (kvs : List (Bytes × Bytes)) (tk tv : Bytes) :
    ((innerAdvance kvs tk tv).2.1).Sublist kvs := by
  induction kvs with
  | nil => simp [innerAdvance]
  | cons p rest ih =>
    obtain ⟨sk, sv⟩ := p
    cases hcmp : compareBytes sk tk with
    | lt =>
      simp only [innerAdvance, hcmp]
      exact ih.cons _
    | eq =>
      simp only [innerAdvance, hcmp]
      exact (List.sublist_cons_self _ _)
    | gt => simp [innerAdvance, hcmp]

/-- After `innerAdvance`, every remaining batch key is strictly above the
current trie key (assuming the batch is strictly ascending). -/
theorem innerAdvance_rem_gt (kvs : List (Bytes × Bytes)) (tk tv : Bytes)
    (hs : kvs.Pairwise (fun a b => keyLt a.1 b.1)) :
    ∀ p ∈ (innerAdvance kvs tk tv).2.1, keyLt tk p.1 := by
  induction kvs with
  | nil => simp [innerAdvance]
  | cons q rest ih =>
    obtain ⟨sk, sv⟩ := q
    intro p hp
    cases hcmp : compareBytes sk tk with
    | lt =>
      simp only [innerAdvance, hcmp] at hp
      exact ih (List.Pairwise.sublist (List.sublist_cons_self _ _) hs) p hp
    | eq =>
      simp only [innerAdvance, hcmp] at hp
      have hsk : sk = tk := compareBytes_eq_iff.mp hcmp
      subst hsk
      exact (List.pairwise_cons.mp hs).1 p hp
    | gt =>
      simp only [innerAdvance, hcmp, List.mem_cons] at hp
      have htk : keyLt tk sk := compareBytes_gt_iff_lt.mp hcmp
      rcases hp with hp | hp
      · subst hp; exact htk
      · exact keyLt_trans htk ((List.pairwise_cons.mp hs).1 p hp)

/-- The deletions emitted by one `innerAdvance` step are strictly
ascending when the batch is. -/
theorem innerAdvance_dels_pairwise (kvs : List (Bytes × Bytes)) (tk tv : Bytes)
    (hs : kvs.Pairwise (fun a b => keyLt a.1 b.1)) :
    ((innerAdvance kvs tk tv).1).Pairwise (fun a b => keyLt a.key b.key) := by
  induction kvs with
  | nil => simp [innerAdvance]
  | cons q rest ih =>
    obtain ⟨sk, sv⟩ := q
    cases hcmp : compareBytes sk tk with
    | lt =>
      simp only [innerAdvance, hcmp]
      refine List.pairwise_cons.mpr ⟨?_, ih (List.pairwise_cons.mp hs).2⟩
      intro c hc
      obtain ⟨-, hmem, -⟩ := innerAdvance_dels rest tk tv c hc
      simp only [List.mem_map] at hmem
      obtain ⟨p, hp, hkey⟩ := hmem
      have := (List.pairwise_cons.mp hs).1 p hp
      simpa [delCall, hkey] using this
    | eq => simp [innerAdvance, hcmp]
    | gt => simp [innerAdvance, hcmp]

/-- Every callback key the regeneration loop emits is strictly above any
lower bound of both inputs. -/
theorem regenLoop_lb (ts : List (Bytes × Bytes)) :
    ∀ (kvs : List (Bytes × Bytes)) (last : Option Bytes) (x : Bytes),
    (∀ p ∈ ts, keyLt x p.1) → (∀ p ∈ kvs, keyLt x p.1) →
    ∀ c ∈ (regenLoop ts kvs last).1, keyLt x c.key := by
  induction ts with
  | nil =>
    intro kvs last x _ hkvs c hc
    simp only [regenLoop, List.mem_map] at hc
    obtain ⟨p, hp, hcp⟩ := hc
    subst hcp
    exact hkvs p hp
  | cons q ts ih =>
    intro kvs last x hts hkvs c hc
    obtain ⟨tk, tv⟩ := q
    cases hb : beyondLast last tk with
    | true =>
      rw [regenLoop, hb] at hc
      simp only [if_true, List.mem_map] at hc
      obtain ⟨p, hp, hcp⟩ := hc
      subst hcp
      exact hkvs p hp
    | false =>
      simp only [regenLoop, hb, Bool.false_eq_true, if_false, List.mem_append,
        List.mem_cons] at hc
      rcases hc with hc | hc | hc
      · obtain ⟨-, hmem, -⟩ := innerAdvance_dels kvs tk tv c hc
        simp only [List.mem_map] at hmem
        obtain ⟨p, hp, hkey⟩ := hmem
        have := hkvs p hp
        rw [hkey] at this
        exact this
      · subst hc
        exact hts (tk, tv) (by simp)
      · refine ih _ last x (fun p hp => hts p (by simp [hp])) ?_ c hc
        intro p hp
        exact hkvs p (List.Sublist.mem hp (innerAdvance_sublist kvs tk tv))

/-- The callbacks of the regeneration loop are in strictly ascending key
order when both the trie iteration and the batch are strictly ascending. -/
theorem regenLoop_sorted (ts : List (Bytes × Bytes)) :
    ∀ (kvs : List (Bytes × Bytes)) (last : Option Bytes),
    ts.Pairwise (fun a b => keyLt a.1 b.1) →
    kvs.Pairwise (fun a b => keyLt a.1 b.1) →
    (regenLoop ts kvs last).1.Pairwise (fun a b => keyLt a.key b.key) := by
  induction ts with
  | nil =>
    intro kvs last _ hkvs
    simp only [regenLoop]
    exact List.Pairwise.map delCall (fun _ _ h => h) hkvs
  | cons q ts ih =>
    intro kvs last hts hkvs
    obtain ⟨tk, tv⟩ := q
    cases hb : beyondLast last tk with
    | true =>
      rw [regenLoop, hb]
      simp only [if_true]
      exact List.Pairwise.map delCall (fun _ _ h => h) hkvs
    | false =>
      rw [regenLoop, hb]
      simp only [if_false]
      have hts' := List.pairwise_cons.mp hts
      have hrem_gt := innerAdvance_rem_gt kvs tk tv hkvs
      have hrec_lb : ∀ c ∈ (regenLoop ts (innerAdvance kvs tk tv).2.1 last).1,
          keyLt tk c.key :=
        regenLoop_lb ts _ last tk hts'.1 hrem_gt
      refine List.pairwise_append.mpr ⟨innerAdvance_dels_pairwise kvs tk tv hkvs, ?_, ?_⟩
      · refine List.pairwise_cons.mpr ⟨hrec_lb, ?_⟩
        exact ih _ last hts'.2
          (List.Pairwise.sublist (innerAdvance_sublist kvs tk tv) hkvs)
      · intro a ha b hb'
        obtain ⟨halt, -, -⟩ := innerAdvance_dels kvs tk tv a ha
        simp only [List.mem_cons] at hb'
        rcases hb' with hb' | hb'
        · subst hb'; exact halt
        · exact keyLt_trans halt (hrec_lb b hb')

/-- C7: when the range proof fails, `generateRange` delivers its `onState`
callbacks in strict ascending key order, as the merge of the trie iteration
bounded inclusively by the batch's last key with the collected snapshot
batch: snapshot keys strictly below the current trie key are deleted
(`onState(key, nil, false, true)`), an equal key delivers the trie value
with `write = (snapshot value ≠ trie value)`, an unmatched trie key is
written (`write = true`), and every snapshot key left after the trie walk
is deleted. -/
theorem generateRange_fallback_merge (ts kvs : List (Bytes × Bytes))
    (last : Option Bytes)
    (hts : ts.Pairwise (fun a b => keyLt a.1 b.1))
    (hkvs : kvs.Pairwise (fun a b => keyLt a.1 b.1))
    (_hlast : last = (kvs.map Prod.fst).getLast?) :
    (regenLoop ts kvs last).1 = mergeSpec (truncAtLast last ts) kvs
    ∧ (regenLoop ts kvs last).1.Pairwise (fun a b => keyLt a.key b.key) :=
  ⟨regenLoop_eq_mergeSpec ts kvs last, regenLoop_sorted ts kvs last hts hkvs⟩

/-- Witness for `generateRange_fallback_merge` on a concrete trie/batch
pair exercising delete, update and create. -/
theorem generateRange_fallback_merge_witness :
    (regenLoop [([3], [1]), ([5], [2])]
        [([1], [9]), ([5], [7]), ([6], [4])] (some [6])).1
      = mergeSpec (truncAtLast (some [6]) [([3], [1]), ([5], [2])])
          [([1], [9]), ([5], [7]), ([6], [4])]
    ∧ (regenLoop [([3], [1]), ([5], [2])]
        [([1], [9]), ([5], [7]), ([6], [4])] (some [6])).1.Pairwise
        (fun a b => keyLt a.key b.key) :=
  generateRange_fallback_merge [([3], [1]), ([5], [2])]
    [([1], [9]), ([5], [7]), ([6], [4])] (some [6])
    (by decide) (by decide) (by decide)

/-- A bloom filter of the diff stack, modelled by the exact set of 64-bit
mini-hash keys added to it: `Copy` is the filter itself, `UnionInPlace` is
set union (bitwise-or at the bit level), `Contains` is membership. None of
the properties proved below depends on false positives; an empty filter
contains nothing in the model exactly as in a real filter. -/
abbrev Bloom := Finset Nat

/-- Bloom membership probe (`Filter.Contains`). -/
def bloomContains (f : Bloom) (k : Nat) : Bool := decide (k ∈ f)

/-- `bloomHasherOffset`: which 8-byte window of a 32-byte hash feeds the
filter. Randomised in `[0, 24]` at process init in the source; fixed here,
its value is irrelevant to the claims. -/
def bloomHasherOffset : Nat := 0

/-- `accountBloomHasher.Sum64`: the big-endian 64-bit window of an account
hash at `bloomHasherOffset`. -/
def accountBloomKey (h : Bytes) : Nat :=
  beUint64 ((h.drop bloomHasherOffset).take 8)

/-- `storageBloomHasher.Sum64`: xor of the windows of the account hash and
the slot hash. -/
def storageBloomKey (a s : Bytes) : Nat :=
  Nat.xor (accountBloomKey a) (accountBloomKey s)

/-- Errors surfaced by snapshot reads. -/
inductive SnapErr where
  | snapshotStale
  | notCoveredYet
deriving DecidableEq, Repr

/-- Modelled from the spec: the disk layer's structure and read methods are
not among the provided sources (only its construction inside
`generateSnapshot` is). Per the spec it is the persistent snapshot at a
root: reads are served from the flat maps, fail with `ErrSnapshotStale`
once the layer is stale, and regions at or beyond `genMarker` must not be
served (`genMarker = none` means fully generated, `some m` means generated
strictly below `m`). -/
structure DiskLayer where
  root : Bytes
  accounts : Bytes → Option Bytes
  storageMap : Bytes → Bytes → Option Bytes
  stale : Bool
  genMarker : Option Bytes

/-- Modelled from the spec: `diskLayer.AccountRLP`. -/
def diskAccountRLP (d : DiskLayer) (h : Bytes) : Except SnapErr Bytes :=
  if d.stale then .error .snapshotStale
  else
    match d.genMarker with
    | some m =>
      if compareBytes h m = .lt then .ok ((d.accounts h).getD [])
      else .error .notCoveredYet
    | none => .ok ((d.accounts h).getD [])

/-- Modelled from the spec: `diskLayer.Storage`; the generation marker
covers the storage space under the key `accountHash‖slotHash`. -/
def diskStorage (d : DiskLayer) (a s : Bytes) : Except SnapErr Bytes :=
  if d.stale then .error .snapshotStale
  else
    match d.genMarker with
    | some m =>
      if compareBytes (a ++ s) m = .lt then .ok ((d.storageMap a s).getD [])
      else .error .notCoveredYet
    | none => .ok ((d.storageMap a s).getD [])

/-- The per-layer data of a `diffLayer` (everything except the parent
link): the disk-layer handle for bloom misses, the memory estimate, the
layer's root, the stale flag, the account map (`none` = key absent,
`some []` = tombstone), the storage map (`none` = account absent,
`some none` = nil inner map, i.e. storage wiped; slot values as in the
account map), the layer's own bloom `diffed` and the lazily built
`cumulative` (`none` = not prepared, Go nil). The memoised sorted key
lists are caches and are not modelled. -/
structure DiffData where
  origin : Option DiskLayer
  memory : Nat
  root : Bytes
  stale : Bool
  accountData : Bytes → Option Bytes
  storageData : Bytes → Option (Option (Bytes → Option Bytes))
  diffed : Bloom
  cumulative : Option Bloom

/-- The polymorphic `snapshot` parent chain: a diff layer over a parent, or
the disk layer at the bottom. -/
inductive Snap where
  | disk : DiskLayer → Snap
  | diff : DiffData → Snap → Snap

/-- `diffLayer.accountRLP` (the internal walk, lines 1025-1054): fail when
the layer is stale, return a locally known entry (`nil` data = deleted),
otherwise recurse into the parent; a non-diff parent terminates the walk
through its own `AccountRLP`. -/
def snapAccountRLP : Snap → Bytes → Except SnapErr Bytes
  | .disk d, h => diskAccountRLP d h
  | .diff dd p, h =>
    if dd.stale then .error .snapshotStale
    else
      match dd.accountData h with
      | some data => .ok data
      | none => snapAccountRLP p h

/-- `diffLayer.AccountRLP` (lines 1005-1020): probe the cumulative bloom;
on a miss delegate straight to the disk-layer `origin`, on a hit walk the
diff chain. The outer `Option` is `none` when the Go code would
nil-dereference (`cumulative` or `origin` nil). -/
def AccountRLP (dd : DiffData) (p : Snap) (h : Bytes) :
    Option (Except SnapErr Bytes) :=
  match dd.cumulative with
  | none => none
  | some cum =>
    if bloomContains cum (accountBloomKey h) then
      some (snapAccountRLP (.diff dd p) h)
    else
      match dd.origin with
      | some d => some (diskAccountRLP d h)
      | none => none

/-- `diffLayer.storage` (the internal walk, lines 1079-1117): fail when
stale; a nil inner map means the account's storage was wiped (`nil, nil`);
a present slot is returned; an unknown slot recurses into the parent. -/
def snapStorage : Snap → Bytes → Bytes → Except SnapErr Bytes
  | .disk d, a, s => diskStorage d a s
  | .diff dd p, a, s =>
    if dd.stale then .error .snapshotStale
    else
      match dd.storageData a with
      | some none => .ok []
      | some (some m) =>
        match m s with
        | some data => .ok data
        | none => snapStorage p a s
      | none => snapStorage p a s

/-- `diffLayer.Storage` (lines 1059-1074): bloom probe with the storage
hasher, miss goes to the disk origin, hit walks the chain. -/
def Storage (dd : DiffData) (p : Snap) (a s : Bytes) :
    Option (Except SnapErr Bytes) :=
  match dd.cumulative with
  | none => none
  | some cum =>
    if bloomContains cum (storageBloomKey a s) then
      some (snapStorage (.diff dd p) a s)
    else
      match dd.origin with
      | some d => some (diskStorage d a s)
      | none => none

/-- The parent-walk loop of `diffLayer.Prepare` (lines 946-955). The loop
variable `layer` is initialised to the layer itself and never advanced, so
every iteration re-examines the same `parent`; the loop is given an
explicit fuel bound, `none` meaning the bound was exhausted without the
loop ever breaking. -/
def prepareLoop (parent : Snap) : Nat → Bloom → Option Bloom
  | 0, _ => none
  | fuel + 1, cum =>
    match parent with
    | .diff pd _ => prepareLoop parent fuel (cum ∪ pd.diffed)
    | .disk _ => some cum

/-- `diffLayer.Prepare` (lines 943-964): copy `diffed` into `cumulative`,
run the parent walk, and record the disk-layer `origin`. -/
def Prepare (fuel : Nat) (dl : DiffData) (parent : Snap) (origin : DiskLayer) :
    Option DiffData :=
  (prepareLoop parent fuel dl.diffed).map
    (fun cum => { dl with cumulative := some cum, origin := some origin })

theorem prepareLoop_diff_none (pd : DiffData) (pp : Snap) :
    ∀ (fuel : Nat) (cum : Bloom), prepareLoop (.diff pd pp) fuel cum = none := by
  intro fuel
  induction fuel with
  | zero => intro cum; rfl
  | succ n ih => intro cum; exact ih (cum ∪ pd.diffed)

/-- C2 (code bug): for every diff layer whose parent is itself a diff
layer, `Prepare` never terminates — the walk variable is never advanced,
so no fuel bound ever lets the loop break — whereas with a disk-layer
parent the loop exits at once with `cumulative` a copy of `diffed` and the
layer's `origin` set to the given disk layer. -/
theorem Prepare_diverges_on_diff_parent :
    (∀ (fuel : Nat) (dl pd : DiffData) (pp : Snap) (origin : DiskLayer),
      Prepare fuel dl (.diff pd pp) origin = none)
    ∧ ∀ (fuel : Nat) (dl : DiffData) (d : DiskLayer) (origin : DiskLayer),
      Prepare (fuel + 1) dl (.disk d) origin
        = some { dl with cumulative := some dl.diffed, origin := some origin } := by
  constructor
  · intro fuel dl pd pp origin
    unfold Prepare
    rw [prepareLoop_diff_none]
    rfl
  · intro fuel dl d origin
    rfl

/-- A live disk layer holding one account with one storage slot, fully
generated. -/
def diskSample : DiskLayer where
  root := []
  accounts := fun h => if h = List.replicate 32 1 then some [42] else none
  storageMap := fun a s =>
    if a = List.replicate 32 1 ∧ s = List.replicate 32 2 then some [9] else none
  stale := false
  genMarker := none

/-- A stale, prepared diff layer with no local entries: its cumulative
bloom is empty, so every read misses the bloom. -/
def staleMissLayer : DiffData where
  origin := some diskSample
  memory := 0
  root := []
  stale := true
  accountData := fun _ => none
  storageData := fun _ => none
  diffed := ∅
  cumulative := some ∅

/-- C3 counterexample: on a stale diff layer, a read whose hash misses the
cumulative bloom filter is delegated to the disk-layer origin and
succeeds — it does not return `ErrSnapshotStale`, refuting that every read
on a stale handle fails. -/
theorem stale_layer_read_succeeds :
    staleMissLayer.stale = true
    ∧ AccountRLP staleMissLayer (.disk diskSample) (List.replicate 32 1)
        = some (.ok [42])
    ∧ Storage staleMissLayer (.disk diskSample) (List.replicate 32 1)
        (List.replicate 32 2) = some (.ok [9])
    ∧ (some (.ok [42]) : Option (Except SnapErr Bytes))
        ≠ some (.error .snapshotStale) := by
  refine ⟨rfl, by rfl, by rfl, by simp⟩

/-- C3 amended: once a diff layer's stale flag is set, every read that the
cumulative bloom filter reports as a hit — i.e. every read that actually
enters the diff-layer chain — fails with `ErrSnapshotStale`, for every
account hash and every (account, slot) pair; a bloom-miss read bypasses
the diff layers entirely and is served by the disk-layer origin, so it can
still succeed. -/
theorem stale_hit_reads_fail (dd : DiffData) (p : Snap) (h a s : Bytes)
    (cum : Bloom) (hstale : dd.stale = true) (hcum : dd.cumulative = some cum) :
    (bloomContains cum (accountBloomKey h) = true →
      AccountRLP dd p h = some (.error .snapshotStale))
    ∧ (bloomContains cum (storageBloomKey a s) = true →
      Storage dd p a s = some (.error .snapshotStale)) := by
  constructor
  · intro hhit
    simp [AccountRLP, hcum, hhit, snapAccountRLP, hstale]
  · intro hhit
    simp [Storage, hcum, hhit, snapStorage, hstale]

/-- A stale, prepared diff layer whose cumulative bloom contains the keys
of the sample account and slot. -/
def staleHitLayer : DiffData where
  origin := some diskSample
  memory := 0
  root := []
  stale := true
  accountData := fun _ => none
  storageData := fun _ => none
  diffed := ∅
  cumulative := some
    {accountBloomKey (List.replicate 32 1),
     storageBloomKey (List.replicate 32 1) (List.replicate 32 2)}

/-- Witness for `stale_hit_reads_fail` on a bloom-hitting stale layer. -/
theorem stale_hit_reads_fail_witness :
    AccountRLP staleHitLayer (.disk diskSample) (List.replicate 32 1)
        = some (.error .snapshotStale)
    ∧ Storage staleHitLayer (.disk diskSample) (List.replicate 32 1)
        (List.replicate 32 2) = some (.error .snapshotStale) := by
  have hth := stale_hit_reads_fail staleHitLayer (.disk diskSample)
    (List.replicate 32 1) (List.replicate 32 1) (List.replicate 32 2)
    {accountBloomKey (List.replicate 32 1),
     storageBloomKey (List.replicate 32 1) (List.replicate 32 2)}
    rfl rfl
  exact ⟨hth.1 (by decide), hth.2 (by decide)⟩

/-- Go's `parent.storageData[accountHash] == nil`: true both when the key
is absent and when the inner map is nil. -/
def storEntryIsNil : Option (Option (Bytes → Option Bytes)) → Bool
  | none => true
  | some none => true
  | some (some _) => false

/-- The account merge of `flatten` (lines 1149-1152): every child entry
overwrites the parent's entry of the same hash. -/
def mergeAccountData (child par : Bytes → Option Bytes) :
    Bytes → Option Bytes :=
  fun h =>
    match child h with
    | some v => some v
    | none => par h

/-- The storage merge of `flatten` (lines 1153-1167): per account, when the
parent's inner map is nil/absent or the child's is nil, the child's entry
overwrites blindly; otherwise the slots are merged with the child taking
precedence. -/
def mergeStorageData
    (child par : Bytes → Option (Option (Bytes → Option Bytes))) :
    Bytes → Option (Option (Bytes → Option Bytes)) :=
  fun a =>
    match child a with
    | none => par a
    | some st =>
      match par a, st with
      | some (some pm), some cm =>
        some (some (fun s =>
          match cm s with
          | some v => some v
          | none => pm s))
      | _, _ => some st

/-- `diffLayer.flatten` (lines 1128-1180) on layer data `dd` over parent
snapshot `p`. Returns `none` on the panic (flattening into an already
stale parent), otherwise `(combo, comboParent, parentAfter)`: the combined
layer, its parent link (the flattened parent's parent), and — since the
source mutates the parent in place — the flattened parent as it is left
behind: marked stale and holding the merged maps (shared with the combo).
`parentAfter` is `none` when the parent is not a diff layer and the layer
is returned unmodified. -/
def flattenDiff : DiffData → Snap → Option (DiffData × Snap × Option DiffData)
  | dd, .disk d => some (dd, .disk d, none)
  | dd, .diff pd pp =>
    match flattenDiff pd pp with
    | none => none
    | some (fp, fpp, _) =>
      if fp.stale then none
      else
        some
          ({ origin := fp.origin,
             memory := fp.memory + dd.memory,
             root := dd.root,
             stale := false,
             accountData := mergeAccountData dd.accountData fp.accountData,
             storageData := mergeStorageData dd.storageData fp.storageData,
             diffed := dd.diffed,
             cumulative := none },
           fpp,
           some { fp with
                  stale := true,
                  accountData := mergeAccountData dd.accountData fp.accountData,
                  storageData := mergeStorageData dd.storageData fp.storageData })

/-- C8: `flatten` on a layer whose parent is not a diff layer returns the
layer unchanged; otherwise, after recursively flattening the parent, it
panics exactly when the flattened parent is already stale, else marks the
parent stale, overwrites the parent's account entries with the layer's,
merges storage per account — overwriting the whole inner map when either
side's inner map is nil, merging slot by slot with the child winning
otherwise — and returns a new layer inheriting the parent's parent link
and disk origin, carrying the layer's root and diffed filter and the
combined memory. -/
theorem flatten_spec :
    (∀ (dd : DiffData) (d : DiskLayer),
      flattenDiff dd (.disk d) = some (dd, .disk d, none))
    ∧ ∀ (dd pd : DiffData) (pp fpp : Snap) (fp : DiffData)
        (pa : Option DiffData),
      flattenDiff pd pp = some (fp, fpp, pa) →
      (fp.stale = true → flattenDiff dd (.diff pd pp) = none)
      ∧ (fp.stale = false →
          ∃ combo fpAfter : DiffData,
            flattenDiff dd (.diff pd pp) = some (combo, fpp, some fpAfter)
            ∧ fpAfter.stale = true
            ∧ combo.root = dd.root
            ∧ combo.diffed = dd.diffed
            ∧ combo.origin = fp.origin
            ∧ combo.memory = fp.memory + dd.memory
            ∧ combo.accountData = fpAfter.accountData
            ∧ combo.storageData = fpAfter.storageData
            ∧ (∀ h v, dd.accountData h = some v → combo.accountData h = some v)
            ∧ (∀ h, dd.accountData h = none →
                combo.accountData h = fp.accountData h)
            ∧ (∀ a, dd.storageData a = none →
                combo.storageData a = fp.storageData a)
            ∧ (∀ a st, dd.storageData a = some st →
                storEntryIsNil (fp.storageData a) = true ∨ st = none →
                combo.storageData a = some st)
            ∧ (∀ a pm cm, dd.storageData a = some (some cm) →
                fp.storageData a = some (some pm) →
                combo.storageData a
                  = some (some (fun s =>
                      match cm s with
                      | some v => some v
                      | none => pm s)))) := by
  constructor
  · intro dd d
    rfl
  · intro dd pd pp fpp fp pa hrec
    constructor
    · intro hstale
      rw [flattenDiff, hrec]
      dsimp only
      rw [if_pos hstale]
    · intro hlive
      rw [flattenDiff, hrec]
      dsimp only
      rw [if_neg (by simp [hlive])]
      refine ⟨_, _, rfl, rfl, rfl, rfl, rfl, rfl, rfl, rfl, ?_, ?_, ?_, ?_, ?_⟩
      · intro h v hh
        simp [mergeAccountData, hh]
      · intro h hh
        simp [mergeAccountData, hh]
      · intro a ha
        simp [mergeStorageData, ha]
      · intro a st ha hnil
        simp only [mergeStorageData, ha]
        rcases hnil with hnil | hnil
        · cases hfp : fp.storageData a with
          | none => simp
          | some inner =>
            cases inner with
            | none => cases st <;> simp
            | some pm =>
              rw [hfp] at hnil
              simp [storEntryIsNil] at hnil
        · subst hnil
          cases hfp : fp.storageData a with
          | none => simp
          | some inner => cases inner <;> simp
      · intro a pm cm hch hfp
        simp [mergeStorageData, hch, hfp]

/-- A live parent diff layer with one account and one storage slot. -/
def diffBase : DiffData where
  origin := some diskSample
  memory := 3
  root := [1]
  stale := false
  accountData := fun h => if h = [1] then some [10] else none
  storageData := fun a =>
    if a = [1] then some (some (fun s => if s = [2] then some [20] else none))
    else none
  diffed := ∅
  cumulative := none

/-- A child diff layer overwriting the account and adding a slot. -/
def diffTop : DiffData where
  origin := some diskSample
  memory := 4
  root := [2]
  stale := false
  accountData := fun h => if h = [1] then some [11] else none
  storageData := fun a =>
    if a = [1] then some (some (fun s => if s = [3] then some [30] else none))
    else none
  diffed := ∅
  cumulative := none

/-- Witness for `flatten_spec` on a two-layer stack over the disk layer. -/
theorem flatten_spec_witness :
    ∃ combo fpAfter : DiffData,
      flattenDiff diffTop (.diff diffBase (.disk diskSample))
          = some (combo, .disk diskSample, some fpAfter)
      ∧ fpAfter.stale = true
      ∧ combo.root = diffTop.root
      ∧ combo.memory = diffBase.memory + diffTop.memory := by
  obtain ⟨combo, fpA, h1, h2, h3, -, -, h6, -⟩ :=
    (flatten_spec.2 diffTop diffBase (.disk diskSample) (.disk diskSample)
      diffBase none rfl).2 rfl
  exact ⟨combo, fpA, h1, h2, h3, h6⟩

/-- Addresses of the scoped-journal component (20-byte opaque
identifiers, modelled as naturals). -/
abbrev Addr := Nat

/-- Hash identifiers of the scoped-journal component (transaction hashes,
storage keys/values), modelled as naturals. -/
abbrev JHash := Nat

/-- Modelled from the spec: the distinguished `types.EmptyCodeHash` value
(the hash of empty code), outside the provided sources. -/
def emptyCodeHash : JHash := 0

/-- Modelled from the spec: `types.StateAccount` as the journal consumes
it — nonce, balance, code hash. -/
structure StateAccount where
  nonce : Nat
  balance : Nat
  codeHash : JHash
deriving DecidableEq, Repr

/-- `journalAccount`: the journalled state of an account — all the normal
fields except storage root, plus a destruction flag; `codeHash = none`
encodes `nil`, i.e. the empty code hash. -/
structure journalAccount where
  nonce : Nat
  balance : Nat
  codeHash : Option JHash
  destructed : Bool
deriving DecidableEq, Repr

/-- `addrSlot`: an (address, storage slot) access-list pair. -/
structure addrSlot where
  addr : Addr
  slot : JHash
deriving DecidableEq, Repr

/-- `scopedJournal`: all changes within a single call scope. Go maps whose
iteration order the revert code walks are modelled as association lists in
insertion order (each key is recorded at most once per scope, and reverts
of distinct keys commute). `refund = -1` is the "no previous value set"
sentinel. -/
structure scopedJournal where
  accountChanges : List (Addr × Option journalAccount)
  refund : Int
  logs : List JHash
  accessListAddresses : List Addr
  accessListAddrSlots : List addrSlot
  storageChanges : List (Addr × List (JHash × JHash))
  tStorageChanges : List (Addr × List (JHash × JHash))

/-- `newScopedJournal`: a fresh scope with the refund sentinel set. -/
def newScopedJournal : scopedJournal where
  accountChanges := []
  refund := -1
  logs := []
  accessListAddresses := []
  accessListAddrSlots := []
  storageChanges := []
  tStorageChanges := []

/-- `scopedJournal.JournalRefund`: capture the previous refund only on
first observation in the scope. -/
def scopedJournal.JournalRefund (j : scopedJournal) (prev : Nat) : scopedJournal :=
  if j.refund = -1 then { j with refund := (prev : Int) } else j

/-- `scopedJournal.journalAccountChange` (lines 1344-1363): unless the
address is already journalled in this scope, record its pre-image (`none`
account = creation, journalled as a tombstone); the returned flag reports
whether a record was made. -/
def scopedJournal.journalAccountChange (j : scopedJournal) (address : Addr)
    (account : Option StateAccount) (destructed : Bool) :
    scopedJournal × Bool :=
  match j.accountChanges.lookup address with
  | some _ => (j, false)
  | none =>
    let entry : Option journalAccount :=
      match account with
      | some acc =>
        some { nonce := acc.nonce, balance := acc.balance,
               codeHash :=
                 if acc.codeHash = emptyCodeHash then none else some acc.codeHash,
               destructed := destructed }
      | none => none
    ({ j with accountChanges := j.accountChanges ++ [(address, entry)] }, true)

/-- `scopedJournal.journalLog`: append the transaction hash. -/
def scopedJournal.journalLog (j : scopedJournal) (txHash : JHash) : scopedJournal :=
  { j with logs := j.logs ++ [txHash] }

/-- `scopedJournal.journalAccessListAddAccount`. -/
def scopedJournal.journalAccessListAddAccount (j : scopedJournal) (addr : Addr) :
    scopedJournal :=
  { j with accessListAddresses := j.accessListAddresses ++ [addr] }

/-- `scopedJournal.journalAccessListAddSlot`. -/
def scopedJournal.journalAccessListAddSlot (j : scopedJournal) (addr : Addr)
    (slot : JHash) : scopedJournal :=
  { j with accessListAddrSlots := j.accessListAddrSlots ++ [{ addr := addr, slot := slot }] }

/-- Record the first previous value seen per (address, key): the shared
shape of `journalSetState` and `journalSetTransientState` — a previous
value already present is never overwritten. -/
def setFirstPrev (m : List (Addr × List (JHash × JHash))) (addr : Addr)
    (key prev : JHash) : List (Addr × List (JHash × JHash)) :=
  match m.lookup addr with
  | none => m ++ [(addr, [(key, prev)])]
  | some changes =>
    match changes.lookup key with
    | some _ => m
    | none => m.map (fun p => if p.1 = addr then (p.1, p.2 ++ [(key, prev)]) else p)

/-- `scopedJournal.journalSetState`. -/
def scopedJournal.journalSetState (j : scopedJournal) (addr : Addr)
    (key prev : JHash) : scopedJournal :=
  { j with storageChanges := setFirstPrev j.storageChanges addr key prev }

/-- `scopedJournal.journalSetTransientState`. -/
def scopedJournal.journalSetTransientState (j : scopedJournal) (addr : Addr)
    (key prev : JHash) : scopedJournal :=
  { j with tStorageChanges := setFirstPrev j.tStorageChanges addr key prev }

/-- Modelled from the spec: the journallable view of a `stateObject` —
nonce, balance, code hash (with the cached code blob that `setCode`
resets), self-destruction flag and contract storage. -/
structure StateObj where
  nonce : Nat
  balance : Nat
  codeHash : JHash
  code : Option Bytes
  selfDestructed : Bool
  storage : JHash → JHash

/-- Modelled from the spec: the slice of `StateDB` the journal reverts —
refund counter, state objects with their dirty set, logs (count per
transaction hash) with total size, access list, transient storage. -/
structure StateDB where
  refund : Nat
  stateObjects : Addr → Option StateObj
  stateObjectsDirty : Addr → Bool
  logs : JHash → Nat
  logSize : Nat
  accessAddrs : Addr → Bool
  accessSlots : Addr → JHash → Bool
  transient : Addr → JHash → JHash

/-- Modelled from the spec: update a state object in place when present
(`getStateObject` followed by the setters; the source assumes the object
exists when its change was journalled). -/
def StateDB.updateObj (s : StateDB) (addr : Addr) (f : StateObj → StateObj) :
    StateDB :=
  { s with stateObjects := fun a =>
      if a = addr then (s.stateObjects a).map f else s.stateObjects a }

/-- `scopedJournal.revert` (lines 1407-1470), applying the scope's recorded
previous values to the state in source order: refund, accounts (a
journalled creation deletes the object and its dirty flag without touching
the counters; otherwise nonce, code — `setCode` only when the current hash
differs, nil journalled hash standing for the empty code hash — balance
and destruction flag are restored and the address's dirties count is
decremented, deletion of the counter at zero being invisible to lookups),
logs (pop one entry per recorded hash, dropping the key at one), access
list slots then addresses, contract storage, transient storage. -/
def scopedJournal.revert (j : scopedJournal) (s : StateDB)
    (dirties : Addr → Int) : StateDB × (Addr → Int) :=
  let s0 := if j.refund = -1 then s else { s with refund := j.refund.toNat }
  let sd := j.accountChanges.foldl
    (fun (acc : StateDB × (Addr → Int)) chg =>
      let s := acc.1
      let d := acc.2
      match chg.2 with
      | none =>
        ({ s with
            stateObjects := fun a => if a = chg.1 then none else s.stateObjects a,
            stateObjectsDirty := fun a =>
              if a = chg.1 then false else s.stateObjectsDirty a },
         d)
      | some data =>
        let s' := StateDB.updateObj s chg.1 (fun obj =>
          let o1 := { obj with nonce := data.nonce }
          let o2 :=
            match data.codeHash with
            | none =>
              if o1.codeHash ≠ emptyCodeHash then
                { o1 with codeHash := emptyCodeHash, code := none }
              else o1
            | some jh =>
              if o1.codeHash ≠ jh then { o1 with codeHash := jh, code := none }
              else o1
          { o2 with balance := data.balance, selfDestructed := data.destructed })
        (s', fun a => if a = chg.1 then d chg.1 - 1 else d a))
    (s0, dirties)
  let s1 := sd.1
  let s2 := j.logs.foldl
    (fun s txhash =>
      { s with
          logs := fun h =>
            if h = txhash then
              (if s.logs txhash = 1 then 0 else s.logs txhash - 1)
            else s.logs h,
          logSize := s.logSize - 1 })
    s1
  let s3 := j.accessListAddrSlots.foldl
    (fun s item =>
      { s with accessSlots := fun a sl =>
          if a = item.addr ∧ sl = item.slot then false else s.accessSlots a sl })
    s2
  let s4 := j.accessListAddresses.foldl
    (fun s addr =>
      { s with accessAddrs := fun a => if a = addr then false else s.accessAddrs a })
    s3
  let s5 := j.storageChanges.foldl
    (fun s p =>
      p.2.foldl
        (fun s kv =>
          StateDB.updateObj s p.1 (fun obj =>
            { obj with storage := fun k => if k = kv.1 then kv.2 else obj.storage k }))
        s)
    s4
  let s6 := j.tStorageChanges.foldl
    (fun s p =>
      p.2.foldl
        (fun s kv =>
          { s with transient := fun a k =>
              if a = p.1 ∧ k = kv.1 then kv.2 else s.transient a k })
        s)
    s5
  (s6, sd.2)

/-- `sparseJournal`: the stack of scoped journals plus the per-address
dirties counters (Go's map with delete-at-zero; lookups of absent keys
read 0, so an `Int`-valued function is lookup-faithful). -/
structure sparseJournal where
  entries : List scopedJournal
  dirties : Addr → Int

/-- `newSparseJournal`. -/
def newSparseJournal : sparseJournal where
  entries := []
  dirties := fun _ => 0

/-- `sparseJournal.Snapshot` (lines 1500-1504): push a fresh scope and
return the stack depth before the push. -/
def sparseJournal.Snapshot (j : sparseJournal) : sparseJournal × Nat :=
  ({ j with entries := j.entries ++ [newScopedJournal] }, j.entries.length)

/-- `sparseJournal.RevertToSnapshot` (lines 1507-1517): panic (`none`)
when `id >= len(entries)`; otherwise run `for i := id; i > 0; i--`
reverting `entries[i]` at each step — the indices `id, id-1, …, 1`, in
that order — then truncate the entry stack to `id`. -/
def sparseJournal.RevertToSnapshot (j : sparseJournal) (id : Nat) (s : StateDB) :
    Option (sparseJournal × StateDB) :=
  if j.entries.length ≤ id then none
  else
    let r := ((List.range' 1 id).reverse).foldl
      (fun (acc : StateDB × (Addr → Int)) i =>
        (j.entries.getD i newScopedJournal).revert acc.1 acc.2)
      (s, j.dirties)
    some ({ entries := j.entries.take id, dirties := r.2 }, r.1)

/-- `sparseJournal.journalAccountChange` (lines 1530-1534): record into the
top scope and bump the address's dirties count when a record was made.
Invoked with an empty stack the source panics; modelled as the unchanged
journal, never exercised here. -/
def sparseJournal.journalAccountChange (j : sparseJournal) (addr : Addr)
    (account : Option StateAccount) (destructed : Bool) : sparseJournal :=
  match j.entries.getLast? with
  | none => j
  | some top =>
    let r := top.journalAccountChange addr account destructed
    { entries := j.entries.dropLast ++ [r.1],
      dirties :=
        if r.2 then fun a => if a = addr then j.dirties a + 1 else j.dirties a
        else j.dirties }

/-- Modelled from the spec: the interface-level `JournalRefund` wrapper
(the `sparseJournal` method is not among the sources; per the spec, each
change recorder writes into the top scope). -/
def sparseJournal.JournalRefund (j : sparseJournal) (prev : Nat) : sparseJournal :=
  match j.entries.getLast? with
  | none => j
  | some top => { j with entries := j.entries.dropLast ++ [top.JournalRefund prev] }

/-- Modelled from the spec: a refund-changing operation as the execution
engine performs it — journal the previous refund into the top scope, then
set the new value on the state. -/
def opSetRefund (j : sparseJournal) (s : StateDB) (new : Nat) :
    sparseJournal × StateDB :=
  (j.JournalRefund s.refund, { s with refund := new })

/-- An empty state: zero refund, no objects, no logs, empty access list,
zeroed transient storage. -/
def stateEmpty : StateDB where
  refund := 0
  stateObjects := fun _ => none
  stateObjectsDirty := fun _ => false
  logs := fun _ => 0
  logSize := 0
  accessAddrs := fun _ => false
  accessSlots := fun _ _ => false
  transient := fun _ _ => 0

/-- The bracketed sequence `id = snapshot(); C; …` with `C` a single
refund change from 0 to 5: the journal and state just before
`revertToSnapshot(id)` is called, where `id = 0`. -/
def journalScenario : sparseJournal × StateDB :=
  let r1 := newSparseJournal.Snapshot
  opSetRefund r1.1 stateEmpty 5

/-- C1 (code bug): `revertToSnapshot(id)` reverts entries `id, id-1, …, 1`
instead of the scopes above `id`. With one active scope and `id = 0` (as
returned by the bracketing `snapshot()`), the loop body never runs: the
refund change recorded in scope 0 — whose pre-image 0 the journal holds —
is not applied, and the resulting state keeps `refund = 5` instead of the
pre-snapshot 0. -/
theorem revertToSnapshot_misses_scopes :
    ∃ (j' : sparseJournal) (s' : StateDB),
      (journalScenario.1).RevertToSnapshot 0 journalScenario.2 = some (j', s')
      ∧ s'.refund = 5
      ∧ stateEmpty.refund = 0
      ∧ ((journalScenario.1).entries.getD 0 newScopedJournal).refund = 0 := by
  exact ⟨_, _, rfl, rfl, rfl, rfl⟩
